import Mathlib

/-!
# Verification of the goflipmiibo Amiibo `.bin` → Flipper `.nfc` converter

Shallow embedding of `main.go`. Go byte slices are modelled by `GoSlice`:
the visible elements (`data`, whose length is the Go `len`) together with
the bytes sitting between `len` and `cap` in the underlying array
(`spare`). A Go slice expression `s[low:high]` is legal whenever
`high ≤ cap s` and reads the underlying array, so it may reach into
`spare`; this is what makes the program's behaviour on very short inputs
depend on how the slice was produced. `os.ReadFile` (used by
`loadBinFile`) allocates a zero-filled buffer of capacity
`max (size+1) 512`, which `loadBinFile` reflects.

Bytes are `Nat`s; well-formed slices (`GoSlice.WF`) hold values `< 256`,
matching Go's `byte`.
-/

namespace GoFlipMiibo



/-- A Go byte slice: `data` is the visible part (`len s = data.length`) and
`spare` holds the bytes of the underlying array between `len` and `cap`. -/
structure GoSlice where
  data : List Nat
  spare : List Nat
deriving DecidableEq

namespace GoSlice

/-- Go `len(s)`. -/
def len (s : GoSlice) : Nat := s.data.length

/-- Go `cap(s)`. -/
def cap (s : GoSlice) : Nat := s.data.length + s.spare.length

/-- The underlying array from position 0 to `cap`. -/
def underlying (s : GoSlice) : List Nat := s.data ++ s.spare

/-- Every byte of the underlying array is a Go `byte`, i.e. `< 256`. -/
def WF (s : GoSlice) : Prop := ∀ b ∈ s.underlying, b < 256

instance : DecidablePred WF := fun s => List.decidableBAll _ s.underlying

/-- Go slice expression `s[low:high]`: in range iff `low ≤ high ≤ cap s`
(out of range panics, modelled as `none`); the value read is taken from
the underlying array, which may include bytes beyond `len`. -/
def sliceExpr (s : GoSlice) (low high : Nat) : Option (List Nat) :=
  if low ≤ high ∧ high ≤ s.cap then
    some (((s.underlying).drop low).take (high - low))
  else
    none

end GoSlice

/-- Go `append(s, b)` for one byte: if spare capacity exists the byte
overwrites the first spare position; otherwise the runtime grows the
array (`growslice`), copying `data`, and zero-fills the new array beyond
the new length (Go clears the non-overwritten part of a pointer-free
allocation). The new capacity is `max (len+1) (2*cap)`, the shape of the
doubling rule for small slices. -/
def goAppendByte (s : GoSlice) (b : Nat) : GoSlice :=
  match s.spare with
  | _ :: rest => ⟨s.data ++ [b], rest⟩
  | [] => ⟨s.data ++ [b], List.replicate (max (s.len + 1) (2 * s.cap) - (s.len + 1)) 0⟩

/-- Append `k` zero bytes, one at a time, as the padding loop does. -/
def appendZeros : GoSlice → Nat → GoSlice
  | s, 0 => s
  | s, k + 1 => appendZeros (goAppendByte s 0) k

/-- The padding loop of `convertBinDataToNfcPages` (main.go lines 74-79):
`for len % 4 != 0 { append 0x00 }`, compiled to appending the exit count
`(4 - len % 4) % 4` of zero bytes. -/
def padTo4 (s : GoSlice) : GoSlice := appendZeros s ((4 - s.len % 4) % 4)

/-- Amiibos use NTAG215; an NTAG215 tag has 135 pages of 4 bytes. -/
def Ntag215PageQuantity : Nat := 135

/-- Lowercase hex digit, as produced by Go `encoding/hex`. -/
def hexDigitLower (n : Nat) : Char :=
  if n < 10 then Char.ofNat (48 + n) else Char.ofNat (87 + n)

/-- Go `hex.EncodeToString([]byte{b})`: two lowercase hex digits. -/
def encodeToString1 (b : Nat) : String :=
  ⟨[hexDigitLower (b / 16), hexDigitLower (b % 16)]⟩

/-- Go `strings.ToUpper`, restricted to the ASCII strings this program
produces, where it agrees with `Char.toUpper` character by character. -/
def goToUpper (s : String) : String := ⟨s.data.map Char.toUpper⟩

/-- Go `strings.Join(l, sep)`. -/
def goJoin (sep : String) : List String → String
  | [] => ""
  | [x] => x
  | x :: y :: rest => x ++ sep ++ goJoin sep (y :: rest)

/-- Go `strings.ReplaceAll(s, " ", "")` as used on the UID string:
removes every space character. -/
def replaceAllSpaceEmpty (s : String) : String :=
  ⟨s.data.filter (fun c => c ≠ ' ')⟩

/-- Value of a hex digit accepted by Go `encoding/hex` (0-9, a-f, A-F). -/
def hexDigitValue (c : Char) : Option Nat :=
  if '0' ≤ c ∧ c ≤ '9' then some (c.toNat - 48)
  else if 'a' ≤ c ∧ c ≤ 'f' then some (c.toNat - 87)
  else if 'A' ≤ c ∧ c ≤ 'F' then some (c.toNat - 55)
  else none

/-- Go `hex.DecodeString` at its single use site, where the error is
discarded (`uid, _ := hex.DecodeString(...)`): returns the bytes decoded
before the first malformed pair or odd tail. -/
def hexDecodeCore : List Char → List Nat
  | c1 :: c2 :: rest =>
    match hexDigitValue c1, hexDigitValue c2 with
    | some hi, some lo => (16 * hi + lo) :: hexDecodeCore rest
    | _, _ => []
  | _ => []

def hexDecodeString (s : String) : List Nat := hexDecodeCore s.data

/-- `extractUid` (main.go lines 49-58): concatenates the slice expressions
`fileContent[:3]` and `fileContent[4:8]`, hex-encodes each byte in
uppercase, and joins with single spaces. `none` models the panic when a
slice expression is out of range. -/
def extractUid (fileContent : GoSlice) : Option String :=
  match fileContent.sliceExpr 0 3, fileContent.sliceExpr 4 8 with
  | some a, some b =>
    some (goJoin " " ((a ++ b).map (fun x => goToUpper (encodeToString1 x))))
  | _, _ => none

/-- `calculatePassword` (main.go lines 60-68): the NTAG215 default
password from the raw 7-byte UID string, lowercase hex bytes joined by
spaces. Indexing `rawUid[1]`..`rawUid[6]` panics when the string is
shorter than 7 bytes, modelled as `none`. -/
def calculatePassword (rawUid : List Nat) : Option String :=
  if 7 ≤ rawUid.length then
    some (goJoin " "
      [encodeToString1 (rawUid.getD 1 0 ^^^ rawUid.getD 3 0 ^^^ 0xAA),
       encodeToString1 (rawUid.getD 2 0 ^^^ rawUid.getD 4 0 ^^^ 0x55),
       encodeToString1 (rawUid.getD 3 0 ^^^ rawUid.getD 5 0 ^^^ 0xAA),
       encodeToString1 (rawUid.getD 4 0 ^^^ rawUid.getD 6 0 ^^^ 0x55)])
  else none

/-- The 4 password bytes as pure byte arithmetic (the XOR scheme of
`calculatePassword`), for stating byte-level properties. -/
def passwordBytes (u : List Nat) : List Nat :=
  [u.getD 1 0 ^^^ u.getD 3 0 ^^^ 0xAA,
   u.getD 2 0 ^^^ u.getD 4 0 ^^^ 0x55,
   u.getD 3 0 ^^^ u.getD 5 0 ^^^ 0xAA,
   u.getD 4 0 ^^^ u.getD 6 0 ^^^ 0x55]

/-- One rendered page line (main.go lines 82-85): `"Page <n>:"` followed
by `" <hex>"` for each of the given bytes (uppercased). -/
def pageLine (idx : Nat) (bytes : List Nat) : String :=
  "Page " ++ Nat.repr idx ++ ":" ++
    String.join (bytes.map (fun b => " " ++ goToUpper (encodeToString1 b)))

/-- The page-collection loop (main.go lines 81-93): consume 4 bytes per
page, stopping once `Ntag215PageQuantity` pages have been produced (the
`break` fires after the increment). Callers establish
`bs.length % 4 = 0` (the padding loop ran first), so the ragged-tail
branch is unreachable. -/
def renderLoop : List Nat → Nat → List String
  | [], _ => []
  | b0 :: b1 :: b2 :: b3 :: rest, pageCount =>
    pageLine pageCount [b0, b1, b2, b3] ::
      (if pageCount + 1 ≥ Ntag215PageQuantity then [] else renderLoop rest (pageCount + 1))
  | _, _ => []

/-- The zero-padding loop (main.go lines 94-101): synthetic all-zero page
lines for counts `pageCount`..`134`. -/
def zeroPadPages (pageCount : Nat) : List String :=
  (List.range (Ntag215PageQuantity - pageCount)).map
    (fun k => "Page " ++ Nat.repr (pageCount + k) ++ ": 00 00 00 00")

/-- The `pagesContent` list after the two loops of
`convertBinDataToNfcPages` (main.go lines 71-101), before pages 133/134
are overwritten. -/
def collectedPages (s : GoSlice) : List String :=
  let collected := renderLoop (padTo4 s).data 0
  collected ++ zeroPadPages collected.length

/-- UID bytes that line 103 of main.go recovers by hex-decoding the
`extractUid` output of the padded buffer: bytes 0-2 and 4-7 of the
underlying array. -/
def uidBytesOf (s : GoSlice) : List Nat :=
  ((padTo4 s).underlying.take 3) ++ (((padTo4 s).underlying.drop 4).take 4)

/-- `convertBinDataToNfcPages` up to the final `strings.Join`
(main.go lines 70-105): the final `pagesContent` list. `none` models any
panic (out-of-range slice expression in `extractUid`, string index in
`calculatePassword`, or index assignment on a short list). -/
def convertBinPages (fileContent : GoSlice) : Option (List String) :=
  let padded := padTo4 fileContent
  let collected := renderLoop padded.data 0
  let pagesContent := collected ++ zeroPadPages collected.length
  match extractUid padded with
  | none => none
  | some strUid =>
    let uid := hexDecodeString (replaceAllSpaceEmpty strUid)
    match calculatePassword uid with
    | none => none
    | some pwd =>
      if 134 < pagesContent.length then
        some (((pagesContent.set 133 ("Page 133: " ++ goToUpper pwd)).set 134
          "Page 134: 80 80 00 00"))
      else none

/-- `convertBinDataToNfcPages` (main.go line 107): the page lines joined
by newlines. -/
def convertBinDataToNfcPages (fileContent : GoSlice) : Option String :=
  (convertBinPages fileContent).map (goJoin "\n")

/-- `loadBinFile` on a readable file (main.go lines 34-40): `os.ReadFile`
returns a slice whose length is the file size and whose capacity is
`max (size+1) 512`, the spare capacity zero-filled (`make([]byte, 0, c)`
zeroes the allocation and reads only fill the first `size` bytes). -/
def loadBinFile (content : List Nat) : GoSlice :=
  ⟨content, List.replicate (max (content.length + 1) 512 - content.length) 0⟩

/-- `createNfcFileContent` (main.go lines 110-131): the `fmt.Sprintf`
splice of the fixed header around the UID, the page-count constant and
the page listing. -/
def createNfcFileContent (uid : String) (pages : String) : String :=
  "Filetype: Flipper NFC device\nVersion: 2\n# Nfc device type can be UID, Mifare Ultralight, Bank card\nDevice type: NTAG215\n# UID, ATQA and SAK are common for all formats\nUID: " ++
    uid ++
    "\nATQA: 44 00\nSAK: 00\n# Mifare Ultralight specific data\nSignature: 00 00 00 00 00 00 00 00 00 00 00 00 00 00 00 00 00 00 00 00 00 00 00 00 00 00 00 00 00 00 00 00\nMifare version: 00 04 04 02 01 00 11 03\nCounter 0: 0\nTearing 0: 00\nCounter 1: 0\nTearing 1: 00\nCounter 2: 0\nTearing 2: 00\nPages total: " ++
    Nat.repr Ntag215PageQuantity ++ "\n" ++ pages

/-- Uppercase hex digit, written from the spec's rendering rule
("two-digit uppercase hexadecimal"), independently of the code's
lowercase-then-ToUpper route. -/
def upperHexDigit (d : Nat) : Char :=
  if d < 10 then Char.ofNat (48 + d) else Char.ofNat (55 + d)

/-- Spec-side rendering of one byte: its two-digit uppercase hexadecimal. -/
def specHexByte (b : Nat) : String :=
  ⟨[upperHexDigit (b / 16 % 16), upperHexDigit (b % 16)]⟩

/-- One file job of the batch loop in `main` (main.go lines 158-175):
whether its `loadBinFile` succeeds (and with what content) and whether
its `saveNfcFile` succeeds. -/
structure FileJob where
  load : Option (List Nat)
  writeOk : Bool

/-- Observable outcome of one file in the batch. -/
inductive FileOutcome where
  | converted
  | writeFailed
  | aborted
  | skipped
deriving DecidableEq

/-- The batch loop of `main` (main.go lines 158-175): a load failure hits
`log.Panicln` and aborts the run (remaining files untouched); a write
failure is logged (`log.Println`) and the loop continues. -/
def runBatch : List FileJob → List FileOutcome
  | [] => []
  | j :: rest =>
    match j.load with
    | none => FileOutcome.aborted :: rest.map (fun _ => FileOutcome.skipped)
    | some _ =>
      (if j.writeOk then FileOutcome.converted else FileOutcome.writeFailed) :: runBatch rest

/-! ## Basic facts about the slice model -/

theorem GoSlice.len_le_cap (s : GoSlice) : s.len ≤ s.cap :=
  Nat.le_add_right _ _

theorem goAppendByte_data (s : GoSlice) (b : Nat) :
    (goAppendByte s b).data = s.data ++ [b] := by
  unfold goAppendByte
  cases s.spare <;> rfl

theorem appendZeros_data (k : Nat) (s : GoSlice) :
    (appendZeros s k).data = s.data ++ List.replicate k 0 := by
  induction k generalizing s with
  | zero => simp [appendZeros]
  | succ n ih =>
    rw [show appendZeros s (n + 1) = appendZeros (goAppendByte s 0) n from rfl, ih,
      goAppendByte_data, List.replicate_succ, List.append_assoc]
    rfl

theorem padTo4_data (s : GoSlice) :
    (padTo4 s).data = s.data ++ List.replicate ((4 - s.len % 4) % 4) 0 :=
  appendZeros_data _ _

theorem padTo4_len (s : GoSlice) :
    (padTo4 s).len = s.len + (4 - s.len % 4) % 4 := by
  simp [GoSlice.len, padTo4_data, GoSlice.len]

theorem padTo4_len_mod (s : GoSlice) : (padTo4 s).len % 4 = 0 := by
  rw [padTo4_len]
  omega

theorem padTo4_eq_self (s : GoSlice) (h : s.len % 4 = 0) : padTo4 s = s := by
  unfold padTo4
  rw [h]
  rfl

theorem padTo4_len_ge8 (s : GoSlice) (h : 5 ≤ s.len) : 8 ≤ (padTo4 s).len := by
  have h1 := padTo4_len s
  have h2 := padTo4_len_mod s
  omega

theorem goAppendByte_mem (s : GoSlice) (b : Nat) :
    ∀ x ∈ (goAppendByte s b).underlying, x ∈ s.underlying ∨ x = b ∨ x = 0 := by
  intro x hx
  unfold goAppendByte at hx
  cases hsp : s.spare with
  | nil =>
    rw [hsp] at hx
    simp only [GoSlice.underlying, List.mem_append, List.mem_replicate] at hx
    rcases hx with (h | h) | h
    · exact Or.inl (by simp [GoSlice.underlying, h])
    · exact Or.inr (Or.inl (by simpa using h))
    · exact Or.inr (Or.inr h.2)
  | cons y rest =>
    rw [hsp] at hx
    simp only [GoSlice.underlying, List.mem_append] at hx
    rcases hx with (h | h) | h
    · exact Or.inl (by simp [GoSlice.underlying, h])
    · exact Or.inr (Or.inl (by simpa using h))
    · exact Or.inl (by simp [GoSlice.underlying, hsp, h])

theorem WF_goAppendByte {s : GoSlice} (hs : s.WF) (b : Nat) (hb : b < 256) :
    (goAppendByte s b).WF := by
  intro x hx
  rcases goAppendByte_mem s b x hx with h | h | h
  · exact hs x h
  · omega
  · omega

theorem WF_appendZeros {s : GoSlice} (hs : s.WF) (k : Nat) : (appendZeros s k).WF := by
  induction k generalizing s with
  | zero => exact hs
  | succ n ih => exact ih (WF_goAppendByte hs 0 (by omega))

theorem WF_padTo4 {s : GoSlice} (hs : s.WF) : (padTo4 s).WF :=
  WF_appendZeros hs _

theorem WF_data {s : GoSlice} (hs : s.WF) : ∀ b ∈ s.data, b < 256 := by
  intro b hb
  exact hs b (by simp [GoSlice.underlying, hb])

theorem WF_loadBinFile (content : List Nat) (h : ∀ b ∈ content, b < 256) :
    (loadBinFile content).WF := by
  intro b hb
  simp only [loadBinFile, GoSlice.underlying, List.mem_append, List.mem_replicate] at hb
  rcases hb with hb | hb
  · exact h b hb
  · omega

/-! ## Hex encoding and decoding facts -/

set_option maxRecDepth 4096 in
theorem hexValue_upper_lower : ∀ d < 16,
    hexDigitValue (Char.toUpper (hexDigitLower d)) = some d := by decide

set_option maxRecDepth 4096 in
theorem hexValue_lower : ∀ d < 16, hexDigitValue (hexDigitLower d) = some d := by decide

set_option maxRecDepth 65536 in
theorem goToUpper_encode_eq_specHex : ∀ b < 256,
    goToUpper (encodeToString1 b) = specHexByte b := by decide

theorem encode_div_lt (b : Nat) (hb : b < 256) : b / 16 < 16 := by omega

theorem hexDecodeCore_upper (b : Nat) (hb : b < 256) (r : List Char) :
    hexDecodeCore ((goToUpper (encodeToString1 b)).data ++ r) = b :: hexDecodeCore r := by
  have h1 : (goToUpper (encodeToString1 b)).data =
      [Char.toUpper (hexDigitLower (b / 16)), Char.toUpper (hexDigitLower (b % 16))] := rfl
  rw [h1]
  show hexDecodeCore (Char.toUpper (hexDigitLower (b / 16)) ::
    Char.toUpper (hexDigitLower (b % 16)) :: r) = b :: hexDecodeCore r
  rw [hexDecodeCore]
  rw [hexValue_upper_lower (b / 16) (encode_div_lt b hb),
    hexValue_upper_lower (b % 16) (Nat.mod_lt _ (by omega))]
  simp only
  congr 1
  omega

theorem hexDecodeCore_lower (b : Nat) (hb : b < 256) (r : List Char) :
    hexDecodeCore ((encodeToString1 b).data ++ r) = b :: hexDecodeCore r := by
  have h1 : (encodeToString1 b).data = [hexDigitLower (b / 16), hexDigitLower (b % 16)] := rfl
  rw [h1]
  show hexDecodeCore (hexDigitLower (b / 16) :: hexDigitLower (b % 16) :: r) =
    b :: hexDecodeCore r
  rw [hexDecodeCore]
  rw [hexValue_lower (b / 16) (encode_div_lt b hb),
    hexValue_lower (b % 16) (Nat.mod_lt _ (by omega))]
  simp only
  congr 1
  omega

/-! ## String plumbing -/

theorem goToUpper_append (a b : String) :
    goToUpper (a ++ b) = goToUpper a ++ goToUpper b := by
  apply String.ext
  simp [goToUpper]

theorem goToUpper_space : goToUpper " " = " " := rfl

theorem goToUpper_goJoin_space (l : List String) :
    goToUpper (goJoin " " l) = goJoin " " (l.map goToUpper) := by
  induction l with
  | nil => rfl
  | cons x xs ih =>
    cases xs with
    | nil => rfl
    | cons y rest =>
      rw [goJoin, goToUpper_append, goToUpper_append, goToUpper_space, ih]
      rfl

theorem replaceAllSpaceEmpty_data (s : String) :
    (replaceAllSpaceEmpty s).data = s.data.filter (fun c => c ≠ ' ') := rfl

/-- Hex-decoding the space-stripped join of per-byte renderings recovers
the bytes, for any per-byte rendering `f` whose output decodes to its
byte and contains no space. -/
theorem decode_join (f : Nat → String)
    (hdec : ∀ b, b < 256 → ∀ r, hexDecodeCore ((f b).data ++ r) = b :: hexDecodeCore r)
    (hsp : ∀ b, b < 256 → (f b).data.filter (fun c => c ≠ ' ') = (f b).data) :
    ∀ bs : List Nat, (∀ b ∈ bs, b < 256) →
      hexDecodeString (replaceAllSpaceEmpty (goJoin " " (bs.map f))) = bs := by
  intro bs
  induction bs with
  | nil => intro _; rfl
  | cons b rest ih =>
    intro hlt
    have hb : b < 256 := hlt b (by simp)
    cases rest with
    | nil =>
      show hexDecodeCore ((replaceAllSpaceEmpty (f b)).data) = [b]
      rw [replaceAllSpaceEmpty_data, hsp b hb]
      have := hdec b hb []
      simpa using this
    | cons c rest2 =>
      have hrest : ∀ x ∈ c :: rest2, x < 256 := fun x hx => hlt x (by simp [hx])
      show hexDecodeCore (replaceAllSpaceEmpty (f b ++ " " ++
        goJoin " " ((c :: rest2).map f))).data = b :: c :: rest2
      rw [replaceAllSpaceEmpty_data]
      simp only [String.data_append, List.filter_append]
      rw [hsp b hb]
      have hspc : (" " : String).data.filter (fun c => c ≠ ' ') = [] := rfl
      rw [hspc, List.append_nil]
      rw [← replaceAllSpaceEmpty_data (goJoin " " ((c :: rest2).map f))]
      rw [hdec b hb]
      have := ih hrest
      rw [hexDecodeString] at this
      rw [this]

set_option maxRecDepth 65536 in
/-- Bytes below 256 render (via either hex route) without spaces. -/
theorem encode_no_space : ∀ b < 256,
    (encodeToString1 b).data.filter (fun c => c ≠ ' ') = (encodeToString1 b).data := by
  decide

set_option maxRecDepth 65536 in
theorem encode_upper_no_space : ∀ b < 256,
    (goToUpper (encodeToString1 b)).data.filter (fun c => c ≠ ' ') =
      (goToUpper (encodeToString1 b)).data := by
  decide

theorem decode_join_upper (bs : List Nat) (h : ∀ b ∈ bs, b < 256) :
    hexDecodeString (replaceAllSpaceEmpty
      (goJoin " " (bs.map (fun x => goToUpper (encodeToString1 x))))) = bs :=
  decode_join _ (fun b hb r => hexDecodeCore_upper b hb r)
    (fun b hb => encode_upper_no_space b hb) bs h

theorem decode_join_lower (bs : List Nat) (h : ∀ b ∈ bs, b < 256) :
    hexDecodeString (replaceAllSpaceEmpty (goJoin " " (bs.map encodeToString1))) = bs :=
  decode_join _ (fun b hb r => hexDecodeCore_lower b hb r)
    (fun b hb => encode_no_space b hb) bs h

theorem getD_lt_256 {u : List Nat} (hu : ∀ b ∈ u, b < 256) (i : Nat) :
    u.getD i 0 < 256 := by
  by_cases h : i < u.length
  · rw [List.getD_eq_getElem u 0 h]
    exact hu _ (List.getElem_mem h)
  · rw [List.getD_eq_default u 0 (by omega)]
    omega

theorem xor_lt_256 {a b : Nat} (ha : a < 256) (hb : b < 256) : a ^^^ b < 256 := by
  have e : (256 : Nat) = 2 ^ 8 := by norm_num
  rw [e] at ha hb ⊢
  exact Nat.xor_lt_two_pow ha hb

theorem passwordBytes_lt_256 {u : List Nat} (hu : ∀ b ∈ u, b < 256) :
    ∀ b ∈ passwordBytes u, b < 256 := by
  intro b hb
  simp only [passwordBytes, List.mem_cons, List.not_mem_nil, or_false] at hb
  rcases hb with h | h | h | h <;>
    exact h ▸ xor_lt_256 (xor_lt_256 (getD_lt_256 hu _) (getD_lt_256 hu _)) (by omega)

/-! ## `extractUid` characterization -/

theorem extractUid_eq (s : GoSlice) (h : 8 ≤ s.cap) :
    extractUid s = some (goJoin " "
      ((s.underlying.take 3 ++ (s.underlying.drop 4).take 4).map
        (fun x => goToUpper (encodeToString1 x)))) := by
  unfold extractUid GoSlice.sliceExpr
  rw [if_pos ⟨by omega, by omega⟩, if_pos ⟨by omega, h⟩]
  simp

theorem extractUid_none (s : GoSlice) (h : s.cap < 8) : extractUid s = none := by
  unfold extractUid GoSlice.sliceExpr
  by_cases h3 : 3 ≤ s.cap
  · rw [if_pos ⟨by omega, h3⟩, if_neg (by omega)]
  · rw [if_neg (by omega), if_neg (by omega)]

theorem underlying_length (s : GoSlice) : s.underlying.length = s.cap := by
  simp [GoSlice.underlying, GoSlice.cap]

theorem uidChunks_length {l : List Nat} (h : 8 ≤ l.length) :
    (l.take 3 ++ (l.drop 4).take 4).length = 7 := by
  simp only [List.length_append, List.length_take, List.length_drop]
  omega

theorem uidChunks_subset {l : List Nat} :
    ∀ b ∈ l.take 3 ++ (l.drop 4).take 4, b ∈ l := by
  intro b hb
  rcases List.mem_append.1 hb with h | h
  · exact List.take_subset _ _ h
  · exact List.drop_subset _ _ (List.take_subset _ _ h)

theorem cons_of_le_length {α : Type} (n : Nat) (l : List α) (h : n + 1 ≤ l.length) :
    ∃ a t, l = a :: t := by
  cases l with
  | nil => simp at h
  | cons a t => exact ⟨a, t, rfl⟩

theorem take3_drop4_eq_getD {l : List Nat} (h : 8 ≤ l.length) :
    l.take 3 ++ (l.drop 4).take 4 =
      [l.getD 0 0, l.getD 1 0, l.getD 2 0, l.getD 4 0, l.getD 5 0, l.getD 6 0, l.getD 7 0] := by
  obtain ⟨b0, l, rfl⟩ := cons_of_le_length 7 l (by omega)
  obtain ⟨b1, l, rfl⟩ := cons_of_le_length 6 l (by simp at h; omega)
  obtain ⟨b2, l, rfl⟩ := cons_of_le_length 5 l (by simp at h; omega)
  obtain ⟨b3, l, rfl⟩ := cons_of_le_length 4 l (by simp at h; omega)
  obtain ⟨b4, l, rfl⟩ := cons_of_le_length 3 l (by simp at h; omega)
  obtain ⟨b5, l, rfl⟩ := cons_of_le_length 2 l (by simp at h; omega)
  obtain ⟨b6, l, rfl⟩ := cons_of_le_length 1 l (by simp at h; omega)
  obtain ⟨b7, l, rfl⟩ := cons_of_le_length 0 l (by simp at h; omega)
  simp [List.getD]

/-! ## The page-collection loop -/

theorem renderLoop_length : ∀ (bs : List Nat) (c : Nat), bs.length % 4 = 0 → c < 135 →
    (renderLoop bs c).length = min (bs.length / 4) (135 - c) := by
  intro bs c
  induction bs, c using renderLoop.induct with
  | case1 c =>
    intro _ hc
    simp only [renderLoop, List.length_nil]
    omega
  | case2 b0 b1 b2 b3 rest c ih =>
    intro h4 hc
    rw [renderLoop]
    simp only [List.length_cons] at h4 ⊢
    by_cases hbr : c + 1 ≥ Ntag215PageQuantity
    · rw [if_pos hbr]
      simp only [List.length_nil]
      unfold Ntag215PageQuantity at hbr
      omega
    · rw [if_neg hbr]
      unfold Ntag215PageQuantity at hbr
      rw [ih (by omega) (by omega)]
      omega
  | case3 t c hnil hcons4 =>
    intro h4 hc
    rcases t with _ | ⟨a, _ | ⟨b, _ | ⟨d, _ | ⟨e, rest⟩⟩⟩⟩
    · exact absurd rfl hnil
    · simp at h4
    · simp at h4
    · simp at h4
    · exact absurd rfl (hcons4 a b d e rest)

theorem renderLoop_getElem? : ∀ (bs : List Nat) (c : Nat), bs.length % 4 = 0 → c < 135 →
    ∀ i, i < (renderLoop bs c).length →
      (renderLoop bs c)[i]? = some (pageLine (c + i) ((bs.drop (4 * i)).take 4)) := by
  intro bs c
  induction bs, c using renderLoop.induct with
  | case1 c =>
    intro _ _ i hi
    simp [renderLoop] at hi
  | case2 b0 b1 b2 b3 rest c ih =>
    intro h4 hc i hi
    rw [renderLoop] at hi ⊢
    simp only [List.length_cons] at h4
    by_cases hbr : c + 1 ≥ Ntag215PageQuantity
    · rw [if_pos hbr] at hi ⊢
      have hi0 : i = 0 := by
        simp only [List.length_cons, List.length_nil] at hi
        omega
      subst hi0
      simp
    · rw [if_neg hbr] at hi ⊢
      unfold Ntag215PageQuantity at hbr
      cases i with
      | zero => simp
      | succ i =>
        simp only [List.getElem?_cons_succ, List.length_cons] at hi ⊢
        rw [ih (by omega) (by omega) i (by omega)]
        have harith : c + 1 + i = c + (i + 1) := by omega
        have hdrop : (b0 :: b1 :: b2 :: b3 :: rest).drop (4 * (i + 1)) = rest.drop (4 * i) := by
          rw [show 4 * (i + 1) = 4 + 4 * i from by ring, ← List.drop_drop]
          simp
        rw [harith, hdrop]
  | case3 t c hnil hcons4 =>
    intro h4 hc i hi
    rcases t with _ | ⟨a, _ | ⟨b, _ | ⟨d, _ | ⟨e, rest⟩⟩⟩⟩
    · exact absurd rfl hnil
    · simp at h4
    · simp at h4
    · simp at h4
    · exact absurd rfl (hcons4 a b d e rest)

/-! ## The assembled page list -/

theorem zeroPadPages_length (c : Nat) : (zeroPadPages c).length = 135 - c := by
  simp [zeroPadPages, Ntag215PageQuantity]

theorem padTo4_data_mod (s : GoSlice) : (padTo4 s).data.length % 4 = 0 :=
  padTo4_len_mod s

theorem collectedPages_length (s : GoSlice) : (collectedPages s).length = 135 := by
  unfold collectedPages
  have h1 := renderLoop_length (padTo4 s).data 0 (padTo4_data_mod s) (by omega)
  simp only [List.length_append, h1, zeroPadPages_length]
  omega

theorem pageLine_zero (n : Nat) :
    pageLine n [0, 0, 0, 0] = "Page " ++ Nat.repr n ++ ": 00 00 00 00" := by
  have h4 : String.join ([0, 0, 0, 0].map (fun b => " " ++ goToUpper (encodeToString1 b))) =
      " 00 00 00 00" := by decide
  rw [pageLine, h4, String.append_assoc]
  have hm : (":" ++ " 00 00 00 00" : String) = ": 00 00 00 00" := by decide
  rw [hm]

/-- Every entry of the collected page list, before the overwrites: entry
`i` is the rendering of dump bytes `4i..4i+3` when they exist, the
all-zero page otherwise. -/
theorem collectedPages_getElem? (s : GoSlice) (i : Nat) (hi : i < 135) :
    (collectedPages s)[i]? = some (pageLine i
      (if 4 * (i + 1) ≤ (padTo4 s).data.length
        then ((padTo4 s).data.drop (4 * i)).take 4 else [0, 0, 0, 0])) := by
  unfold collectedPages
  have h4 := padTo4_data_mod s
  have hlen := renderLoop_length (padTo4 s).data 0 h4 (by omega)
  by_cases hin : i < (renderLoop (padTo4 s).data 0).length
  · rw [List.getElem?_append_left hin,
      renderLoop_getElem? (padTo4 s).data 0 h4 (by omega) i hin]
    have hcond : 4 * (i + 1) ≤ (padTo4 s).data.length := by
      rw [hlen] at hin
      omega
    rw [if_pos hcond]
    simp
  · rw [List.getElem?_append_right (by omega)]
    have hcond : ¬ 4 * (i + 1) ≤ (padTo4 s).data.length := by
      rw [hlen] at hin
      omega
    rw [if_neg hcond, pageLine_zero]
    unfold zeroPadPages Ntag215PageQuantity
    rw [List.getElem?_map, List.getElem?_range (by omega)]
    have hidx : (renderLoop (padTo4 s).data 0).length +
        (i - (renderLoop (padTo4 s).data 0).length) = i := by omega
    simp only [Option.map_some']
    rw [hidx]

/-! ## `convertBinDataToNfcPages` characterization -/

theorem convertBinPages_def2 (s : GoSlice) :
    convertBinPages s =
      match extractUid (padTo4 s) with
      | none => none
      | some strUid =>
        match calculatePassword (hexDecodeString (replaceAllSpaceEmpty strUid)) with
        | none => none
        | some pwd =>
          if 134 < (collectedPages s).length then
            some (((collectedPages s).set 133 ("Page 133: " ++ goToUpper pwd)).set 134
              "Page 134: 80 80 00 00")
          else none := rfl

theorem convertBinPages_none (s : GoSlice) (hcap : (padTo4 s).cap < 8) :
    convertBinPages s = none := by
  rw [convertBinPages_def2, extractUid_none _ hcap]

theorem uid_decode (s : GoSlice) (hWF : s.WF) :
    hexDecodeString (replaceAllSpaceEmpty (goJoin " "
      (((padTo4 s).underlying.take 3 ++ ((padTo4 s).underlying.drop 4).take 4).map
        (fun x => goToUpper (encodeToString1 x))))) = uidBytesOf s :=
  decode_join_upper _ (fun b hb => WF_padTo4 hWF b (uidChunks_subset b hb))

theorem uidBytesOf_length (s : GoSlice) (hcap : 8 ≤ (padTo4 s).cap) :
    (uidBytesOf s).length = 7 :=
  uidChunks_length (by rw [underlying_length]; exact hcap)

theorem convertBinPages_some (s : GoSlice) (hWF : s.WF) (hcap : 8 ≤ (padTo4 s).cap) :
    convertBinPages s = some (((collectedPages s).set 133
      ("Page 133: " ++ goToUpper (goJoin " "
        ((passwordBytes (uidBytesOf s)).map encodeToString1)))).set 134
      "Page 134: 80 80 00 00") := by
  have h1 := extractUid_eq (padTo4 s) hcap
  have h2 := uid_decode s hWF
  have h7 : 7 ≤ (uidBytesOf s).length := by
    rw [uidBytesOf_length s hcap]
  rw [convertBinPages_def2, h1]
  simp only [h2]
  rw [calculatePassword, if_pos h7]
  simp only []
  rw [if_pos (by rw [collectedPages_length]; omega)]
  simp [passwordBytes]

/-! ## Rendering bridges to the spec-side uppercase hex -/

theorem goToUpper_join_enc (bs : List Nat) (h : ∀ b ∈ bs, b < 256) :
    goToUpper (goJoin " " (bs.map encodeToString1)) = goJoin " " (bs.map specHexByte) := by
  rw [goToUpper_goJoin_space]
  congr 1
  rw [List.map_map]
  exact List.map_congr_left (fun b hb => goToUpper_encode_eq_specHex b (h b hb))

theorem join_cons : ∀ (l : List String) (a : String),
    String.join (a :: l) = a ++ String.join l := by
  intro l
  induction l with
  | nil =>
    intro a
    apply String.ext
    simp [String.join]
  | cons x xs ih =>
    intro a
    have h1 : String.join (a :: x :: xs) = String.join ((a ++ x) :: xs) := rfl
    rw [h1, ih (a ++ x), ih x, String.append_assoc]

theorem join_space_map (x : String) (xs : List String) :
    String.join ((x :: xs).map (fun s => " " ++ s)) = " " ++ goJoin " " (x :: xs) := by
  induction xs generalizing x with
  | nil =>
    apply String.ext
    simp [String.join, goJoin]
  | cons y rest ih =>
    simp only [List.map_cons] at ih ⊢
    rw [join_cons, ih y, goJoin]
    apply String.ext
    simp

theorem pageLine_spec (n : Nat) (x : Nat) (xs : List Nat) (h : ∀ b ∈ x :: xs, b < 256) :
    pageLine n (x :: xs) =
      "Page " ++ Nat.repr n ++ ": " ++ goJoin " " ((x :: xs).map specHexByte) := by
  unfold pageLine
  have hmap : (x :: xs).map (fun b => " " ++ goToUpper (encodeToString1 b)) =
      ((x :: xs).map specHexByte).map (fun s => " " ++ s) := by
    rw [List.map_map]
    refine List.map_congr_left (fun b hb => ?_)
    simp only [Function.comp]
    rw [goToUpper_encode_eq_specHex b (h b hb)]
  rw [hmap, show (x :: xs).map specHexByte = specHexByte x :: xs.map specHexByte from rfl,
    join_space_map]
  apply String.ext
  have d1 : (":" : String).data = [':'] := rfl
  have d2 : (" " : String).data = [' '] := rfl
  have d3 : (": " : String).data = [':', ' '] := rfl
  simp [d1, d2, d3]

/-! ## XOR cancellation helpers -/

theorem xor_right_cancel {a b c : Nat} (h : a ^^^ c = b ^^^ c) : a = b := by
  have h2 := congrArg (fun z => z ^^^ c) h
  simpa [Nat.xor_cancel_right] using h2

theorem xor_left_cancel {a b c : Nat} (h : c ^^^ a = c ^^^ b) : a = b := by
  have h2 := congrArg (fun z => c ^^^ z) h
  simpa [Nat.xor_cancel_left] using h2

/-! ## Claims -/

/-- C2: for every 7-byte UID, `calculatePassword` returns exactly 4 bytes
(rendered as hex byte pairs, here shown by decoding the rendering back)
computed as `pwd[0] = uid[1] XOR uid[3] XOR 0xAA`,
`pwd[1] = uid[2] XOR uid[4] XOR 0x55`, `pwd[2] = uid[3] XOR uid[5] XOR 0xAA`,
`pwd[3] = uid[4] XOR uid[6] XOR 0x55`, 0-based indices into the UID. -/
theorem claim_C2 (u : List Nat) (h7 : u.length = 7) (hWF : ∀ b ∈ u, b < 256) :
    calculatePassword u = some (goJoin " " ((passwordBytes u).map encodeToString1)) ∧
    (passwordBytes u).length = 4 ∧
    passwordBytes u =
      [u.getD 1 0 ^^^ u.getD 3 0 ^^^ 0xAA,
       u.getD 2 0 ^^^ u.getD 4 0 ^^^ 0x55,
       u.getD 3 0 ^^^ u.getD 5 0 ^^^ 0xAA,
       u.getD 4 0 ^^^ u.getD 6 0 ^^^ 0x55] ∧
    hexDecodeString (replaceAllSpaceEmpty
      (goJoin " " ((passwordBytes u).map encodeToString1))) = passwordBytes u := by
  refine ⟨?_, rfl, rfl, ?_⟩
  · rw [calculatePassword, if_pos (by omega)]
    simp [passwordBytes]
  · exact decode_join_lower _ (passwordBytes_lt_256 hWF)

theorem claim_C2_witness :
    [0, 0, 0, 0, 0, 0, 0].length = 7 ∧
    calculatePassword [0, 0, 0, 0, 0, 0, 0] =
      some (goJoin " " ((passwordBytes [0, 0, 0, 0, 0, 0, 0]).map encodeToString1)) :=
  ⟨rfl, (claim_C2 [0, 0, 0, 0, 0, 0, 0] rfl (by decide)).1⟩

/-- C3: for every input of at least 8 bytes, `extractUid` returns the
7-byte UID made of input bytes 0,1,2 and 4,5,6,7 (byte 3 dropped),
rendered as two-digit uppercase hexadecimal pairs joined by single
spaces. -/
theorem claim_C3 (s : GoSlice) (h8 : 8 ≤ s.len) (hWF : s.WF) :
    extractUid s = some (goJoin " "
      ([s.data.getD 0 0, s.data.getD 1 0, s.data.getD 2 0, s.data.getD 4 0,
        s.data.getD 5 0, s.data.getD 6 0, s.data.getD 7 0].map specHexByte)) := by
  have h8d : 8 ≤ s.data.length := h8
  have hcap : 8 ≤ s.cap := le_trans h8 (GoSlice.len_le_cap s)
  rw [extractUid_eq s hcap]
  have ht : s.underlying.take 3 = s.data.take 3 :=
    List.take_append_of_le_length (by omega)
  have hd : s.underlying.drop 4 = s.data.drop 4 ++ s.spare :=
    List.drop_append_of_le_length (by omega)
  have ht2 : (s.data.drop 4 ++ s.spare).take 4 = (s.data.drop 4).take 4 :=
    List.take_append_of_le_length (by simp; omega)
  rw [show s.underlying.take 3 ++ (s.underlying.drop 4).take 4 =
      s.data.take 3 ++ (s.data.drop 4).take 4 from by rw [ht, hd, ht2]]
  rw [take3_drop4_eq_getD h8d]
  congr 2
  refine List.map_congr_left (fun b hb => goToUpper_encode_eq_specHex b ?_)
  simp only [List.mem_cons, List.not_mem_nil, or_false] at hb
  rcases hb with rfl | rfl | rfl | rfl | rfl | rfl | rfl <;>
    exact getD_lt_256 (WF_data hWF) _

theorem claim_C3_witness :
    extractUid ⟨[1, 2, 3, 4, 5, 6, 7, 8], []⟩ = some "01 02 03 05 06 07 08" :=
  (claim_C3 ⟨[1, 2, 3, 4, 5, 6, 7, 8], []⟩ (by decide) (by decide)).trans (by decide)

set_option maxRecDepth 1000000 in
/-- C7: every header field other than the UID line is a fixed constant
independent of input content: `createNfcFileContent uid pages` is a fixed
prefix, then `uid`, then a fixed middle holding the NTAG215 device type,
ATQA `44 00`, SAK `00`, the 32-byte all-zero signature, the Mifare
version `00 04 04 02 01 00 11 03`, three zeroed counter/tearing pairs and
`Pages total: 135`, then `pages`; so two documents differ only at the UID
and page-listing slots. -/
theorem claim_C7 (uid pages : String) :
    createNfcFileContent uid pages =
      "Filetype: Flipper NFC device\nVersion: 2\n# Nfc device type can be UID, Mifare Ultralight, Bank card\nDevice type: NTAG215\n# UID, ATQA and SAK are common for all formats\nUID: " ++
      uid ++
      "\nATQA: 44 00\nSAK: 00\n# Mifare Ultralight specific data\nSignature: 00 00 00 00 00 00 00 00 00 00 00 00 00 00 00 00 00 00 00 00 00 00 00 00 00 00 00 00 00 00 00 00\nMifare version: 00 04 04 02 01 00 11 03\nCounter 0: 0\nTearing 0: 00\nCounter 1: 0\nTearing 1: 00\nCounter 2: 0\nTearing 2: 00\nPages total: 135\n" ++
      pages := by
  have h135 : Nat.repr Ntag215PageQuantity = "135" := by decide
  have h2 : ("\nATQA: 44 00\nSAK: 00\n# Mifare Ultralight specific data\nSignature: 00 00 00 00 00 00 00 00 00 00 00 00 00 00 00 00 00 00 00 00 00 00 00 00 00 00 00 00 00 00 00 00\nMifare version: 00 04 04 02 01 00 11 03\nCounter 0: 0\nTearing 0: 00\nCounter 1: 0\nTearing 1: 00\nCounter 2: 0\nTearing 2: 00\nPages total: " ++
      "135" ++ "\n" : String) =
      "\nATQA: 44 00\nSAK: 00\n# Mifare Ultralight specific data\nSignature: 00 00 00 00 00 00 00 00 00 00 00 00 00 00 00 00 00 00 00 00 00 00 00 00 00 00 00 00 00 00 00 00\nMifare version: 00 04 04 02 01 00 11 03\nCounter 0: 0\nTearing 0: 00\nCounter 1: 0\nTearing 1: 00\nCounter 2: 0\nTearing 2: 00\nPages total: 135\n" := by
    decide
  rw [createNfcFileContent, h135, ← h2]
  simp [String.append_assoc]

/-- C9: `calculatePassword` is deterministic, and changing any single UID
byte at an index occurring in the formula (1..6) changes the password in
at least one byte (shown both on the password bytes and on the rendered
password string). -/
theorem claim_C9 (u : List Nat) (h7 : u.length = 7) (hWF : ∀ b ∈ u, b < 256)
    (i : Nat) (hi1 : 1 ≤ i) (hi6 : i ≤ 6) (c : Nat) (hc : c < 256)
    (hne : c ≠ u.getD i 0) :
    (∀ v : List Nat, u = v → calculatePassword u = calculatePassword v) ∧
    passwordBytes (u.set i c) ≠ passwordBytes u ∧
    calculatePassword (u.set i c) ≠ calculatePassword u := by
  have hWFset : ∀ b ∈ u.set i c, b < 256 := by
    intro b hb
    rcases List.mem_or_eq_of_mem_set hb with h | h
    · exact hWF b h
    · omega
  have hbyte : passwordBytes (u.set i c) ≠ passwordBytes u := by
    obtain ⟨b0, u, rfl⟩ := cons_of_le_length 6 u (by omega)
    obtain ⟨b1, u, rfl⟩ := cons_of_le_length 5 u (by simp at h7; omega)
    obtain ⟨b2, u, rfl⟩ := cons_of_le_length 4 u (by simp at h7; omega)
    obtain ⟨b3, u, rfl⟩ := cons_of_le_length 3 u (by simp at h7; omega)
    obtain ⟨b4, u, rfl⟩ := cons_of_le_length 2 u (by simp at h7; omega)
    obtain ⟨b5, u, rfl⟩ := cons_of_le_length 1 u (by simp at h7; omega)
    obtain ⟨b6, u, rfl⟩ := cons_of_le_length 0 u (by simp at h7; omega)
    have hu : u = [] := by
      simp only [List.length_cons] at h7
      exact List.eq_nil_of_length_eq_zero (by omega)
    subst hu
    interval_cases i <;>
      · simp only [List.set, passwordBytes, List.getD_cons_zero, List.getD_cons_succ] at hne ⊢
        intro h
        simp at h
        exact hne h
  refine ⟨fun v hv => by rw [hv], hbyte, ?_⟩
  intro heq
  have e1 : calculatePassword (u.set i c) =
      some (goJoin " " ((passwordBytes (u.set i c)).map encodeToString1)) := by
    rw [calculatePassword, if_pos (by simp only [List.length_set]; omega)]
    simp [passwordBytes]
  have e2 : calculatePassword u =
      some (goJoin " " ((passwordBytes u).map encodeToString1)) := by
    rw [calculatePassword, if_pos (by omega)]
    simp [passwordBytes]
  rw [e1, e2] at heq
  have hstr := Option.some.inj heq
  have d1 := decode_join_lower (passwordBytes (u.set i c)) (passwordBytes_lt_256 hWFset)
  have d2 := decode_join_lower (passwordBytes u) (passwordBytes_lt_256 hWF)
  rw [hstr] at d1
  exact hbyte (d1.symm.trans d2 |>.symm ▸ rfl)

theorem claim_C9_witness :
    passwordBytes ([1, 2, 3, 4, 5, 6, 7].set 1 9) ≠ passwordBytes [1, 2, 3, 4, 5, 6, 7] :=
  (claim_C9 [1, 2, 3, 4, 5, 6, 7] rfl (by decide) 1 (by decide) (by decide) 9 (by decide)
    (by decide)).2.1

theorem isSome_to_hcap (s : GoSlice) (hs : (convertBinPages s).isSome) :
    8 ≤ (padTo4 s).cap := by
  by_contra h
  rw [convertBinPages_none s (by omega)] at hs
  simp at hs

set_option maxRecDepth 10000000 in
/-- C1: the empty (0-byte) input file, loaded by `loadBinFile` (whose
`os.ReadFile` buffer has 512 zero bytes of spare capacity), goes through
`extractUid` and `convertBinDataToNfcPages` without any out-of-range
slice access: the UID is all-zero, pages 0-132 are all-zero, page 133
carries the all-zero-UID password `AA 55 AA 55`, page 134 the constant
`80 80 00 00`. -/
theorem claim_C1 :
    extractUid (loadBinFile []) = some "00 00 00 00 00 00 00" ∧
    convertBinPages (loadBinFile []) =
      some ((List.range 133).map (fun n => "Page " ++ Nat.repr n ++ ": 00 00 00 00") ++
        ["Page 133: AA 55 AA 55", "Page 134: 80 80 00 00"]) ∧
    convertBinDataToNfcPages (loadBinFile []) =
      some (goJoin "\n"
        ((List.range 133).map (fun n => "Page " ++ Nat.repr n ++ ": 00 00 00 00") ++
          ["Page 133: AA 55 AA 55", "Page 134: 80 80 00 00"])) := by
  have h2 : convertBinPages (loadBinFile []) =
      some ((List.range 133).map (fun n => "Page " ++ Nat.repr n ++ ": 00 00 00 00") ++
        ["Page 133: AA 55 AA 55", "Page 134: 80 80 00 00"]) := by decide
  refine ⟨by decide, h2, ?_⟩
  rw [convertBinDataToNfcPages, h2]
  rfl

/-- C4: whenever the conversion succeeds, the line at index 133 is
`"Page 133: "` followed by the password computed from the input's UID
(uppercase hex, space-separated), and the line at index 134 is exactly
`"Page 134: 80 80 00 00"`, regardless of the dump bytes at those
offsets. -/
theorem claim_C4 (s : GoSlice) (hWF : s.WF) (hs : (convertBinPages s).isSome) :
    ((convertBinPages s).getD [])[133]? =
      some ("Page 133: " ++ goJoin " "
        ((passwordBytes (uidBytesOf s)).map specHexByte)) ∧
    ((convertBinPages s).getD [])[134]? = some "Page 134: 80 80 00 00" := by
  have hcap := isSome_to_hcap s hs
  have hpw : ∀ b ∈ passwordBytes (uidBytesOf s), b < 256 :=
    passwordBytes_lt_256 (fun b hb => WF_padTo4 hWF b (uidChunks_subset b hb))
  rw [convertBinPages_some s hWF hcap, goToUpper_join_enc _ hpw]
  simp only [Option.getD_some]
  have hlen : (collectedPages s).length = 135 := collectedPages_length s
  constructor
  · rw [List.getElem?_set_ne (by omega), List.getElem?_set_self (by omega)]
  · rw [List.getElem?_set_self (by simp only [List.length_set]; omega)]

set_option maxRecDepth 10000000 in
theorem claim_C4_witness :
    ((convertBinPages ⟨[1, 2, 3, 4, 5, 6, 7, 8], []⟩).getD [])[133]? =
      some ("Page 133: " ++ goJoin " "
        ((passwordBytes (uidBytesOf ⟨[1, 2, 3, 4, 5, 6, 7, 8], []⟩)).map specHexByte)) ∧
    ((convertBinPages ⟨[1, 2, 3, 4, 5, 6, 7, 8], []⟩).getD [])[134]? =
      some "Page 134: 80 80 00 00" :=
  claim_C4 ⟨[1, 2, 3, 4, 5, 6, 7, 8], []⟩ (by decide) (by decide)

/-- C5: whenever the conversion succeeds the result has exactly 135 lines
in ascending order; line `i` (for the lines not overwritten afterwards,
`i ≤ 132`) renders dump bytes `4i..4i+3` when the dump reaches that far
(groups of 4 from offset 0, surplus beyond 135 groups discarded) and the
all-zero page otherwise. -/
theorem claim_C5 (s : GoSlice) (hWF : s.WF) (hs : (convertBinPages s).isSome) :
    ((convertBinPages s).getD []).length = 135 ∧
    ∀ i, i ≤ 132 →
      ((convertBinPages s).getD [])[i]? = some (pageLine i
        (if 4 * (i + 1) ≤ (padTo4 s).data.length
          then ((padTo4 s).data.drop (4 * i)).take 4 else [0, 0, 0, 0])) := by
  have hcap := isSome_to_hcap s hs
  rw [convertBinPages_some s hWF hcap]
  simp only [Option.getD_some]
  constructor
  · simp only [List.length_set]
    exact collectedPages_length s
  · intro i hi
    rw [List.getElem?_set_ne (by omega), List.getElem?_set_ne (by omega)]
    exact collectedPages_getElem? s i (by omega)

set_option maxRecDepth 10000000 in
theorem claim_C5_witness :
    ((convertBinPages ⟨[1, 2, 3, 4, 5, 6, 7, 8], []⟩).getD []).length = 135 :=
  (claim_C5 ⟨[1, 2, 3, 4, 5, 6, 7, 8], []⟩ (by decide) (by decide)).1

/-- C6: on an input of exactly 540 bytes the padding step is the
identity, and every page `i ≤ 132` is rendered verbatim as
`"Page i: "` followed by the uppercase hex of bytes `4i..4i+3` separated
by single spaces. -/
theorem claim_C6 (s : GoSlice) (h540 : s.len = 540) (hWF : s.WF)
    (hs : (convertBinPages s).isSome) :
    padTo4 s = s ∧
    ∀ i, i ≤ 132 →
      ((convertBinPages s).getD [])[i]? =
        some ("Page " ++ Nat.repr i ++ ": " ++
          goJoin " " (((s.data.drop (4 * i)).take 4).map specHexByte)) := by
  have h540d : s.data.length = 540 := h540
  have hpad : padTo4 s = s := padTo4_eq_self s (by omega)
  refine ⟨hpad, fun i hi => ?_⟩
  have hcap := isSome_to_hcap s hs
  rw [convertBinPages_some s hWF hcap]
  simp only [Option.getD_some]
  rw [List.getElem?_set_ne (by omega), List.getElem?_set_ne (by omega),
    collectedPages_getElem? s i (by omega), hpad, if_pos (by omega)]
  obtain ⟨a, xs, hax⟩ := cons_of_le_length 3 ((s.data.drop (4 * i)).take 4)
    (by simp only [List.length_take, List.length_drop]; omega)
  rw [hax, pageLine_spec i a xs (fun b hb => WF_data hWF b
    (List.drop_subset _ _ (List.take_subset _ _ (hax ▸ hb))))]

set_option maxRecDepth 10000000 in
theorem claim_C6_witness :
    padTo4 (⟨List.replicate 540 7, []⟩ : GoSlice) = ⟨List.replicate 540 7, []⟩ :=
  (claim_C6 ⟨List.replicate 540 7, []⟩ (by decide) (by decide) (by decide)).1

/-- C10 (amended): for every well-formed input of length at least 5 the
conversion performs only in-range accesses and terminates normally (the
padded buffer holds at least 8 bytes); a well-formed input of any length,
0 to 4 included, crashes exactly when the padded slice's capacity is
below 8 — slices produced by `loadBinFile` always carry capacity at
least 512, so such inputs do not crash in this program's data flow. -/
theorem claim_C10 (s : GoSlice) :
    (s.WF → 5 ≤ s.len → (convertBinDataToNfcPages s).isSome ∧ 8 ≤ (padTo4 s).len) ∧
    ((padTo4 s).cap < 8 → convertBinDataToNfcPages s = none) ∧
    (s.WF → 8 ≤ (padTo4 s).cap → (convertBinDataToNfcPages s).isSome) := by
  refine ⟨?_, ?_, ?_⟩
  · intro hWF h5
    have h8 := padTo4_len_ge8 s h5
    have hcap : 8 ≤ (padTo4 s).cap := le_trans h8 (GoSlice.len_le_cap _)
    refine ⟨?_, h8⟩
    rw [convertBinDataToNfcPages, convertBinPages_some s hWF hcap]
    rfl
  · intro hcap
    rw [convertBinDataToNfcPages, convertBinPages_none s hcap]
    rfl
  · intro hWF hcap
    rw [convertBinDataToNfcPages, convertBinPages_some s hWF hcap]
    rfl

theorem claim_C10_witness :
    (convertBinDataToNfcPages ⟨[1, 2, 3, 4, 5], []⟩).isSome ∧
    convertBinDataToNfcPages ⟨[9], []⟩ = none :=
  ⟨((claim_C10 ⟨[1, 2, 3, 4, 5], []⟩).1 (by decide) (by decide)).1,
   (claim_C10 ⟨[9], []⟩).2.1 (by decide)⟩

set_option maxRecDepth 10000000 in
/-- C10, counterexample to the original claim: a 1-byte input file, read
through `loadBinFile`, does not hit any out-of-range access — the
conversion completes, because the `os.ReadFile` buffer has spare
zero-filled capacity that the slice expressions legally reach into. -/
theorem claim_C10_counterexample :
    (loadBinFile [7]).len = 1 ∧ (convertBinDataToNfcPages (loadBinFile [7])).isSome := by
  constructor
  · rfl
  · decide

/-- C8: in the batch loop of `main`, a load failure aborts the whole run
(the failing file is the last one touched, all later files are skipped),
while a write failure only marks that file and the loop continues with
the rest. -/
theorem claim_C8 (pre rest : List FileJob) (j : FileJob) :
    ((∀ x ∈ pre, x.load.isSome) → j.load = none →
      runBatch (pre ++ j :: rest) =
        pre.map (fun x => if x.writeOk then FileOutcome.converted
          else FileOutcome.writeFailed) ++
        FileOutcome.aborted :: rest.map (fun _ => FileOutcome.skipped)) ∧
    (j.load.isSome → j.writeOk = false →
      runBatch (j :: rest) = FileOutcome.writeFailed :: runBatch rest) := by
  constructor
  · intro hpre hj
    induction pre with
    | nil =>
      simp only [List.nil_append, List.map_nil]
      rw [runBatch, hj]
    | cons p ps ih =>
      have hp : p.load.isSome := hpre p (by simp)
      obtain ⟨bs, hbs⟩ := Option.isSome_iff_exists.1 hp
      simp only [List.cons_append, List.map_cons]
      rw [runBatch]
      rw [hbs]
      rw [ih (fun x hx => hpre x (by simp [hx]))]
  · intro hl hw
    obtain ⟨bs, hbs⟩ := Option.isSome_iff_exists.1 hl
    rw [runBatch, hbs, hw]
    simp

theorem claim_C8_witness :
    runBatch [⟨some [], true⟩, ⟨none, true⟩, ⟨some [], true⟩] =
      [FileOutcome.converted, FileOutcome.aborted, FileOutcome.skipped] ∧
    runBatch [⟨some [], false⟩] = [FileOutcome.writeFailed] := by
  constructor
  · have h := (claim_C8 [⟨some [], true⟩] [⟨some [], true⟩] ⟨none, true⟩).1
      (fun x hx => by simp at hx; subst hx; rfl) rfl
    simpa using h
  · have h := (claim_C8 [] [] ⟨some [], false⟩).2 rfl rfl
    rw [h]
    rfl

end GoFlipMiibo
